import Mathlib

/-!
Verification of the ski-lift-status entity-resolution core.

The definitions below are a shallow embedding of the matcher code:

* `src/src/fetchers/lumiplan/matcher.ts` — `normalizeName`, `fuzzyScore`,
  `loadReferenceData` (its row filter), `findMatches`;
* `lib/fetchers/openskimap` name mapper (`mapNames`) — the CommonJS
  module whose `normalizeName`/`fuzzyScore` bodies are character-for-character
  identical to the TypeScript ones.

Strings are embedded as `List Char`.  JavaScript `toLowerCase` is modelled on
the character range the data uses (ASCII letters and the Latin-1 uppercase
letters, which lower by adding 32 to the code point); characters outside that
range are left unchanged.  JavaScript `\s` and `trim` are modelled by the ASCII
whitespace characters.  JavaScript `Math.round(100 * a / b)` on non-negative
rationals is `⌊(200 a + b) / (2 b)⌋`, "round half up", embedded with exact
natural-number arithmetic instead of floating point.
-/

namespace SkiLift

/-- Characters treated as whitespace by the embedded JavaScript `trim` and the
regexp class `\s` (ASCII part: space, tab, line feed, carriage return,
vertical tab, form feed). -/
def isWs (c : Char) : Bool :=
  c = ' ' || c = '\t' || c = '\n' || c = '\r' || c = Char.ofNat 11 || c = Char.ofNat 12

/-- Characters matched by the separator class `[-_\s]` of
`normalizeName`'s collapse step. -/
def isSep (c : Char) : Bool :=
  c = '-' || c = '_' || isWs c

/-- No two adjacent separator characters — the shape invariant of
separator-collapsed strings. -/
def nsR (a b : Char) : Prop :=
  ¬(isSep a = true ∧ isSep b = true)

/-- JavaScript `toLowerCase` restricted to ASCII `A`-`Z` and the Latin-1
uppercase letters `À`-`Þ` (except `×`); both ranges lower by adding 32 to the
code point.  Other characters are unchanged. -/
def lowerChar (c : Char) : Char :=
  if (65 ≤ c.toNat ∧ c.toNat ≤ 90) ∨ (192 ≤ c.toNat ∧ c.toNat ≤ 222 ∧ c.toNat ≠ 215) then
    Char.ofNat (c.toNat + 32)
  else c

/-- JavaScript `String.prototype.toLowerCase`, characterwise. -/
def lowerStr (s : List Char) : List Char :=
  s.map lowerChar

/-- JavaScript `String.prototype.trim` (both ends). -/
def trimStr (s : List Char) : List Char :=
  ((s.dropWhile isWs).reverse.dropWhile isWs).reverse

/-- The apostrophe character, written via its code point. -/
def apos : Char := Char.ofNat 39

/-- The article alternatives of the regexp
`^(le|la|les|l'|the|der|die|das)\s+` in `normalizeName`, in source order. -/
def articles : List (List Char) :=
  [['l', 'e'], ['l', 'a'], ['l', 'e', 's'], ['l', apos],
   ['t', 'h', 'e'], ['d', 'e', 'r'], ['d', 'i', 'e'], ['d', 'a', 's']]

/-- One alternative of the leading-article regexp: the article must be a
prefix of `s` and be followed by at least one whitespace character; the match
consumes the article and the whole greedy `\s+` run. -/
def tryStrip (a s : List Char) : Option (List Char) :=
  let rest := s.drop a.length
  if a <+: s ∧ rest.head?.any isWs = true then some (rest.dropWhile isWs) else none

/-- The `replace(/^(le|la|les|l'|the|der|die|das)\s+/i, '')` step of
`normalizeName`.  The input is already lowercased, so the `i` flag needs no
separate modelling.  At most one alternative can match (they are pairwise
incompatible prefixes), and a failed alternative leaves the string unchanged,
exactly as regexp alternation with backtracking does. -/
def stripArticle (s : List Char) : List Char :=
  (articles.findSome? (fun a => tryStrip a s)).getD s

/-- Worker for the `replace(/[-_\s]+/g, ' ')` step: each maximal run of
separator characters is replaced by one space.  The flag records whether the
scan is inside a separator run whose space was already emitted. -/
def collapseGo : Bool → List Char → List Char
  | _, [] => []
  | inRun, c :: cs =>
    if isSep c then
      if inRun then collapseGo true cs else ' ' :: collapseGo true cs
    else c :: collapseGo false cs

/-- JavaScript `replace(/[-_\s]+/g, ' ')`. -/
def collapseStr (s : List Char) : List Char :=
  collapseGo false s

/-- The accent-folding table of `normalizeName`
(`é/è/ê/ë→e`, `à/â/ä→a`, `ü/ù→u`, `ö/ô→o`, `ç→c`, `ñ→n`). -/
def foldChar (c : Char) : Char :=
  if c = 'é' ∨ c = 'è' ∨ c = 'ê' ∨ c = 'ë' then 'e'
  else if c = 'à' ∨ c = 'â' ∨ c = 'ä' then 'a'
  else if c = 'ü' ∨ c = 'ù' then 'u'
  else if c = 'ö' ∨ c = 'ô' then 'o'
  else if c = 'ç' then 'c'
  else if c = 'ñ' then 'n'
  else c

/-- The matcher's `normalizeName`: trim, lowercase, strip one leading locale
article, collapse separator runs to single spaces, fold accents, trim again.
The source's `if (!name) return ''` guard is behaviorally subsumed: every
stage maps `[]` to `[]`. -/
def normalizeName (s : List Char) : List Char :=
  trimStr ((collapseStr (stripArticle (lowerStr (trimStr s)))).map foldChar)

/-- Levenshtein recursion with unit insert/delete/substitute costs, consuming
the lists from the front. -/
def levAux : List Char → List Char → Nat
  | [], ys => ys.length
  | x :: xs, [] => (x :: xs).length
  | x :: xs, y :: ys =>
    min (min (levAux xs (y :: ys) + 1) (levAux (x :: xs) ys + 1))
        (levAux xs ys + (if x = y then 0 else 1))
termination_by xs ys => xs.length + ys.length

/-- The matcher's dynamic-programming matrix `matrix[i][j]` holds the edit
distance of the length-`i` prefix of `s1` and the length-`j` prefix of `s2`;
its final entry is obtained by peeling last characters, i.e. by running the
front-recursion `levAux` on the reversed strings. -/
def levenshtein (s1 s2 : List Char) : Nat :=
  levAux s1.reverse s2.reverse

/-- `Math.round(100 * num / den)` for naturals with `den > 0`:
round half up, as exact natural arithmetic. -/
def roundPct (num den : Nat) : Nat :=
  (200 * num + den) / (2 * den)

/-- Body of the matcher's `fuzzyScore` on the already-normalized locals
`s1`, `s2`: 100 for equal strings, 0 when a side is empty, the containment
rule `round(100·shorter/longer)` when one string contains the other,
otherwise the rounded Levenshtein similarity `round(100·(1 − d/maxLen))`. -/
def fuzzyCore (s1 s2 : List Char) : Nat :=
  if s1 = s2 then 100
  else if s1 = [] ∨ s2 = [] then 0
  else if s2 <:+: s1 ∨ s1 <:+: s2 then
    roundPct (min s1.length s2.length) (max s1.length s2.length)
  else
    roundPct (max s1.length s2.length - levenshtein s1 s2) (max s1.length s2.length)

/-- The matcher's `fuzzyScore`: normalize both names, then score. -/
def fuzzyScore (str1 str2 : List Char) : Nat :=
  fuzzyCore (normalizeName str1) (normalizeName str2)

/-- An OpenSkiMap reference row.  Absent or empty (JavaScript-falsy) optional
attributes are `none`; an absent `ski_area_ids` cell is `[]` (the parser turns
missing cells into `''`, and both are falsy in the source's guards). -/
structure OpenSkiMapEntity where
  id : List Char
  name : List Char
  ski_area_ids : List Char
  lift_type : Option (List Char)
  difficulty : Option (List Char)
deriving DecidableEq, Repr

/-- The matcher's disambiguation hint; `none` models an absent, `null` or
empty (falsy) field. -/
structure MatchingHint where
  type : Option (List Char)
  difficulty : Option (List Char)
deriving DecidableEq, Repr

/-- The hint with both fields absent — the source's default `hint = {}`. -/
def noHint : MatchingHint := ⟨none, none⟩

/-- Tier 1 of `findMatches`: the list the lookup `byName` associates to the
key `name.toLowerCase()` — the entities with a non-empty name equal to the
record name up to case, in pool order. -/
def exactTier (name : List Char) (ref : List OpenSkiMapEntity) : List OpenSkiMapEntity :=
  ref.filter (fun e => decide (e.name ≠ []) && decide (lowerStr e.name = lowerStr name))

/-- Tier 2 of `findMatches`: the list `byNormalized` associates to
`normalizeName(name)` — the entities with a non-empty name whose normalized
form equals the record's, in pool order. -/
def normalizedTier (name : List Char) (ref : List OpenSkiMapEntity) : List OpenSkiMapEntity :=
  ref.filter (fun e => decide (e.name ≠ []) && decide (normalizeName e.name = normalizeName name))

/-- Tier 3 of `findMatches`: every entity with a non-empty name whose fuzzy
score against the record name reaches the fixed threshold 75, in pool order. -/
def fuzzyTier (name : List Char) (ref : List OpenSkiMapEntity) : List OpenSkiMapEntity :=
  ref.filter (fun e => decide (e.name ≠ []) && decide (75 ≤ fuzzyScore name e.name))

/-- The candidate cascade of `findMatches`: the exact tier if non-empty, else
the normalized tier if non-empty, else the fuzzy tier. -/
def matchCandidates (name : List Char) (ref : List OpenSkiMapEntity) : List OpenSkiMapEntity :=
  if exactTier name ref ≠ [] then exactTier name ref
  else if normalizedTier name ref ≠ [] then normalizedTier name ref
  else fuzzyTier name ref

/-- The filter callback of `findMatches`' disambiguation step: when the type
hint and the candidate's `lift_type` are both present, keep by type equality;
otherwise, when the difficulty hint and the candidate's `difficulty` are both
present, keep by difficulty equality; otherwise keep. -/
def hintPred (hint : MatchingHint) (c : OpenSkiMapEntity) : Bool :=
  match hint.type, c.lift_type with
  | some t, some ct => decide (ct = t)
  | _, _ =>
    match hint.difficulty, c.difficulty with
    | some d, some cd => decide (cd = d)
    | _, _ => true

/-- The source's `hint.type || hint.difficulty` guard. -/
def hintActive (hint : MatchingHint) : Bool :=
  hint.type.isSome || hint.difficulty.isSome

/-- The tail of `findMatches` after the cascade: empty set stays empty, a
single candidate is returned at once, and with several candidates an active
hint filters them, falling back to the full set when the filter empties. -/
def disambiguate (cands : List OpenSkiMapEntity) (hint : MatchingHint) : List (List Char) :=
  match cands with
  | [] => []
  | [c] => [c.id]
  | _ =>
    if hintActive hint then
      let filtered := cands.filter (hintPred hint)
      if filtered ≠ [] then filtered.map (fun c => c.id) else cands.map (fun c => c.id)
    else cands.map (fun c => c.id)

/-- The matcher's `findMatches`: the falsy-name guard, then the cascade, then
disambiguation. -/
def findMatches (name : List Char) (ref : List OpenSkiMapEntity) (hint : MatchingHint) :
    List (List Char) :=
  if name = [] then [] else disambiguate (matchCandidates name ref) hint

/-- The lift-row filter of `loadReferenceData`:
`lift.ski_area_ids && ids.some(id => lift.ski_area_ids.includes(id))`.
JavaScript `String.prototype.includes` is substring containment on the raw
cell, embedded as `<:+:`. -/
def liftRetained (ids : List (List Char)) (e : OpenSkiMapEntity) : Bool :=
  decide (e.ski_area_ids ≠ []) && ids.any (fun i => decide (i <:+: e.ski_area_ids))

/-- The run-row filter of `loadReferenceData`: as for lifts, plus a non-empty
name. -/
def runRetained (ids : List (List Char)) (e : OpenSkiMapEntity) : Bool :=
  decide (e.ski_area_ids ≠ []) && decide (e.name ≠ []) &&
    ids.any (fun i => decide (i <:+: e.ski_area_ids))

/-- The scope filter of `loadReferenceData` applied to already-parsed rows
(file reading and CSV parsing happen before this point in the source). -/
def loadReferenceFilter (allLifts allRuns : List OpenSkiMapEntity) (ids : List (List Char)) :
    List OpenSkiMapEntity × List OpenSkiMapEntity :=
  (allLifts.filter (liftRetained ids), allRuns.filter (runRetained ids))

/-- Worker for `splitSemi`. -/
def splitSemiGo (acc : List Char) : List Char → List (List Char)
  | [] => [acc.reverse]
  | c :: cs => if c = ';' then acc.reverse :: splitSemiGo [] cs else splitSemiGo (c :: acc) cs

/-- JavaScript `String.prototype.split(';')` — the spec's reading of the
scope-membership cell as a delimiter-separated list of scope ids.  Used to
compare the source's substring test against the spec's list-intersection
wording. -/
def splitSemi (s : List Char) : List (List Char) :=
  splitSemiGo [] s

/-- Spec-side definition, following the claim's words: the scope cell, read
as a `;`-separated list of scope ids, has at least one element in common with
the requested ids. -/
def scopeListIntersects (field : List Char) (ids : List (List Char)) : Bool :=
  (splitSemi field).any (fun x => ids.contains x)

/-- Shorthand for embedding string literals. -/
def chars (s : String) : List Char := s.data

/-! ### The name mapper (`mapNames` of the OpenSkiMap name-mapper module)

The CommonJS mapper takes option fields `nameField`, `idField` and
`fuzzyThreshold`; every caller in the repository uses the defaults
`'name'`/`'id'`/75, which is what this embedding fixes. -/

/-- One record pushed onto `results.mapped`. -/
structure MappedEntry where
  online_name : List Char
  openskimap_id : List Char
  openskimap_name : List Char
  match_type : List Char
  confidence : ℚ
deriving DecidableEq, Repr

/-- The mapper's loop state: the two result lists plus the `mappedIds` set. -/
structure MapNamesState where
  mapped : List MappedEntry
  unmapped : List (List Char)
  mappedIds : Finset (List Char)
deriving DecidableEq

/-- The insertion sequence of `exactLookup`: for each entity with a truthy
name, `set(name, entity)` then `set(name.toLowerCase(), entity)`, in pool
order.  A JavaScript `Map` keeps the value of the last `set` per key, which
`mapGet` reads off this sequence. -/
def exactPairs (pool : List OpenSkiMapEntity) : List (List Char × OpenSkiMapEntity) :=
  pool.flatMap (fun e =>
    if e.name = [] then [] else [(e.name, e), (lowerStr e.name, e)])

/-- The insertion sequence of `normalizedLookup`. -/
def normPairs (pool : List OpenSkiMapEntity) : List (List Char × OpenSkiMapEntity) :=
  pool.flatMap (fun e => if e.name = [] then [] else [(normalizeName e.name, e)])

/-- `Map.get`: the value of the last insertion with the given key. -/
def mapGet (pairs : List (List Char × OpenSkiMapEntity)) (k : List Char) :
    Option OpenSkiMapEntity :=
  (pairs.reverse.find? (fun p => decide (p.1 = k))).map (fun p => p.2)

/-- One iteration of the mapper's fuzzy best-match scan: keep the current
best unless the entity's name is truthy and its score both exceeds the
running best and reaches the threshold 75 (`score > bestScore && score >= 75`;
on ties the earlier entity wins). -/
def fuzzyBestStep (name : List Char) (acc : Nat × Option OpenSkiMapEntity)
    (e : OpenSkiMapEntity) : Nat × Option OpenSkiMapEntity :=
  if e.name = [] then acc
  else if acc.1 < fuzzyScore name e.name ∧ 75 ≤ fuzzyScore name e.name then
    (fuzzyScore name e.name, some e)
  else acc

/-- The mapper's fuzzy scan over the whole pool, starting from
`bestScore = 0`, `bestMatch = null`. -/
def fuzzyBest (pool : List OpenSkiMapEntity) (name : List Char) :
    Nat × Option OpenSkiMapEntity :=
  pool.foldl (fuzzyBestStep name) (0, none)

/-- One iteration of the mapper's main loop: skip falsy names, then try the
exact lookup (raw key, falling back to the lowercased key), the normalized
lookup, and finally the fuzzy scan; a hit appends a mapped record and adds
its id to `mappedIds`, a miss appends the name to `unmapped`. -/
def mapNamesStep (epairs npairs : List (List Char × OpenSkiMapEntity))
    (pool : List OpenSkiMapEntity) (st : MapNamesState) (onlineName : List Char) :
    MapNamesState :=
  if onlineName = [] then st
  else
    match (mapGet epairs onlineName).or (mapGet epairs (lowerStr onlineName)) with
    | some e =>
      ⟨st.mapped ++ [⟨onlineName, e.id, e.name, chars "exact", 1⟩],
       st.unmapped, insert e.id st.mappedIds⟩
    | none =>
      match mapGet npairs (normalizeName onlineName) with
      | some e =>
        ⟨st.mapped ++ [⟨onlineName, e.id, e.name, chars "normalized", 9 / 10⟩],
         st.unmapped, insert e.id st.mappedIds⟩
      | none =>
        match fuzzyBest pool onlineName with
        | (score, some e) =>
          ⟨st.mapped ++ [⟨onlineName, e.id, e.name, chars "fuzzy", (score : ℚ) / 100⟩],
           st.unmapped, insert e.id st.mappedIds⟩
        | (_, none) => ⟨st.mapped, st.unmapped ++ [onlineName], st.mappedIds⟩

/-- The mapper's returned record. -/
structure MapNamesResult where
  mapped : List MappedEntry
  unmapped : List (List Char)
  coverage : ℚ
  mappedIds : Finset (List Char)
  referenceCount : Nat
  mappedCount : Nat
  unmappedCount : Nat

/-- The mapper's `mapNames`: build the lookups, run the loop, and compute
`coverage = mappedIds.size / referenceEntities.length * 100` when the pool is
non-empty, keeping the initial `coverage = 0` otherwise.  The local set
`mappedIds` is carried in the result so its role in `coverage` can be
stated. -/
def mapNames (onlineNames : List (List Char)) (pool : List OpenSkiMapEntity) :
    MapNamesResult :=
  let st := onlineNames.foldl (mapNamesStep (exactPairs pool) (normPairs pool) pool) ⟨[], [], ∅⟩
  ⟨st.mapped, st.unmapped,
   if 0 < pool.length then (st.mappedIds.card : ℚ) / (pool.length : ℚ) * 100 else 0,
   st.mappedIds, pool.length, st.mapped.length, st.unmapped.length⟩

/-- The number of distinct reference ids linked by at least one mapped
record — the spec's `matchedUniqueCount`. -/
def matchedUniqueCount (r : MapNamesResult) : Nat :=
  (r.mapped.map (fun m => m.openskimap_id)).toFinset.card

/-- The distinct ids of the pool. -/
def poolIds (pool : List OpenSkiMapEntity) : Finset (List Char) :=
  (pool.map (fun e => e.id)).toFinset

/-- Loop invariant of the mapper: `mappedIds` is exactly the set of ids of
the mapped records, and every one of them is a pool id. -/
def mapInv (pool : List OpenSkiMapEntity) (st : MapNamesState) : Prop :=
  st.mappedIds = (st.mapped.map (fun m => m.openskimap_id)).toFinset ∧
  st.mappedIds ⊆ poolIds pool

/-! ### Concrete entities used by witnesses and counterexamples -/

/-- Reference entity named `"-"`, whose name normalizes to the empty string. -/
def entDash : OpenSkiMapEntity := ⟨chars "X", chars "-", [], none, none⟩

/-- Candidate with a present lift type. -/
def entGondola : OpenSkiMapEntity := ⟨chars "A", chars "x", [], some (chars "gondola"), none⟩

/-- Candidate with no lift type attribute. -/
def entNoType : OpenSkiMapEntity := ⟨chars "B", chars "x", [], none, none⟩

/-- A chair-lift type hint. -/
def hintChair : MatchingHint := ⟨some (chars "chair_lift"), none⟩

/-! ### Helper lemmas about the cascade -/

/-- An entity of the exact tier has a non-empty name equal to the record name
up to case, so the record name cannot be empty either. -/
lemma name_ne_nil_of_exactTier {name : List Char} {ref : List OpenSkiMapEntity}
    (h : exactTier name ref ≠ []) : name ≠ [] := by
  intro hn
  apply h
  apply List.filter_eq_nil_iff.mpr
  intro e _
  simp only [Bool.and_eq_true, decide_eq_true_eq, not_and]
  intro hne heq
  apply hne
  have : lowerStr e.name = [] := by simpa [hn, lowerStr] using heq
  simpa [lowerStr] using this

/-- Disambiguation with the default empty hint returns every candidate id. -/
lemma disambiguate_noHint (cands : List OpenSkiMapEntity) :
    disambiguate cands noHint = cands.map (fun c => c.id) := by
  match cands with
  | [] => rfl
  | [c] => rfl
  | c :: d :: rest => simp [disambiguate, hintActive, noHint]

/-! ### C6 -/

/-- C6 counterexample: the fuzzy score of "TSD Combe Folle" against
"Combe Folle" is 73, strictly below 75 — the claimed bound `≥ 75` is false. -/
theorem claim_C6_counterexample :
    fuzzyScore (chars "TSD Combe Folle") (chars "Combe Folle") = 73 ∧
    ¬ 75 ≤ fuzzyScore (chars "TSD Combe Folle") (chars "Combe Folle") := by
  decide

/-- C6 amended: one normalized string is contained in the other, so the
containment rule `round(100 · len(shorter)/len(longer))` applies with lengths
11 and 15, and the score is `round(1100/15) = 73`, which is below the fuzzy
threshold 75. -/
theorem claim_C6_containment_score :
    normalizeName (chars "Combe Folle") <:+: normalizeName (chars "TSD Combe Folle") ∧
    (normalizeName (chars "Combe Folle")).length = 11 ∧
    (normalizeName (chars "TSD Combe Folle")).length = 15 ∧
    fuzzyScore (chars "TSD Combe Folle") (chars "Combe Folle") = roundPct 11 15 ∧
    roundPct 11 15 = 73 := by
  decide

/-! ### C8 -/

/-- C8 counterexample: the record name `"---"` is non-empty but normalizes to
the empty string, and still matches the candidate named `"-"` at the
normalized tier, so the returned id set is not empty as the claim requires. -/
theorem claim_C8_counterexample :
    normalizeName (chars "---") = [] ∧ chars "---" ≠ [] ∧
    findMatches (chars "---") [entDash] noHint = [chars "X"] := by
  decide

/-- C8 amended: only a record whose raw name is the empty string is excluded
from matching — `findMatches` then returns the empty id set for every
candidate pool and hint.  A non-empty name that merely normalizes to the
empty string can still match candidates whose names normalize to empty. -/
theorem claim_C8_empty_name_unmatchable (ref : List OpenSkiMapEntity) (hint : MatchingHint) :
    findMatches [] ref hint = [] := by
  simp [findMatches]

/-! ### C5 -/

/-- C5 counterexample: with two same-named candidates and a type hint, no
candidate's `lift_type` equals the hint (the spec-side filter is empty), yet
the pipeline returns exactly the attribute-less candidate: the source's
filter keeps candidates lacking the attribute instead of excluding them. -/
theorem claim_C5_counterexample :
    findMatches (chars "x") [entGondola, entNoType] hintChair = [chars "B"] ∧
    entNoType.lift_type ≠ hintChair.type ∧
    [entGondola, entNoType].filter (fun c => decide (c.lift_type = hintChair.type)) = [] := by
  decide

/-- C5 amended: with more than one candidate and an active hint, the filter
keeps a candidate by attribute equality only when both the hint field and the
candidate attribute are present; a candidate lacking both attributes is kept
unconditionally.  The filtered set is returned whenever it is non-empty. -/
theorem claim_C5_hint_filter (hint : MatchingHint) (c1 c2 : OpenSkiMapEntity)
    (rest : List OpenSkiMapEntity) (hact : hintActive hint = true) :
    ((c1 :: c2 :: rest).filter (hintPred hint) ≠ [] →
      disambiguate (c1 :: c2 :: rest) hint =
        ((c1 :: c2 :: rest).filter (hintPred hint)).map (fun c => c.id)) ∧
    (∀ t ct c, hint.type = some t → c.lift_type = some ct →
      (hintPred hint c = true ↔ ct = t)) ∧
    (∀ c : OpenSkiMapEntity, c.lift_type = none → c.difficulty = none →
      hintPred hint c = true) := by
  refine ⟨fun hne => ?_, fun t ct c hht hcl => ?_, fun c h1 h2 => ?_⟩
  · simp only [disambiguate, hact, if_true, hne, if_pos]
    rw [if_pos hne]
  · simp [hintPred, hht, hcl]
  · cases hh : hint.type with
    | none => simp [hintPred, hh, h1, h2]
    | some t => simp [hintPred, hh, h1, h2]

/-- C5 witness: a gondola hint on the same candidate pool keeps both the
matching gondola and the attribute-less candidate, and that filtered set is
what disambiguation returns. -/
theorem claim_C5_hint_filter_witness :
    hintActive (MatchingHint.mk (some (chars "gondola")) none) = true ∧
    disambiguate [entGondola, entNoType] (MatchingHint.mk (some (chars "gondola")) none) =
      ([entGondola, entNoType].filter
        (hintPred (MatchingHint.mk (some (chars "gondola")) none))).map (fun c => c.id) :=
  ⟨by decide,
   (claim_C5_hint_filter (MatchingHint.mk (some (chars "gondola")) none) entGondola entNoType []
      (by decide)).1 (by decide)⟩

/-! ### C1 -/

/-- C1: the cascade short-circuits: a non-empty exact tier is returned as the
candidate set unchanged (so the normalized and fuzzy tiers cannot contribute),
and with the default empty hint the returned ids are exactly the exact-tier
ids; likewise a non-empty normalized tier short-circuits the fuzzy tier. -/
theorem claim_C1_strict_cascade (name : List Char) (ref : List OpenSkiMapEntity)
    (hint : MatchingHint) :
    (exactTier name ref ≠ [] →
      matchCandidates name ref = exactTier name ref ∧
      (hint = noHint → findMatches name ref hint = (exactTier name ref).map (fun e => e.id))) ∧
    (exactTier name ref = [] → normalizedTier name ref ≠ [] →
      matchCandidates name ref = normalizedTier name ref) := by
  constructor
  · intro hex
    have hcand : matchCandidates name ref = exactTier name ref := by
      simp [matchCandidates, hex]
    refine ⟨hcand, fun hh => ?_⟩
    have hn : name ≠ [] := name_ne_nil_of_exactTier hex
    subst hh
    rw [findMatches, if_neg hn, hcand, disambiguate_noHint]
  · intro hex hnorm
    simp [matchCandidates, hex, hnorm]

/-- C1 witness: a pool containing one exactly-matching (up to case) entity and
one fuzzily-similar entity; the cascade returns only the exact entity and the
returned ids are exactly its id. -/
theorem claim_C1_strict_cascade_witness :
    exactTier (chars "Caron") [⟨chars "1", chars "caron", [], none, none⟩,
        ⟨chars "2", chars "caron x", [], none, none⟩] ≠ [] ∧
    matchCandidates (chars "Caron") [⟨chars "1", chars "caron", [], none, none⟩,
        ⟨chars "2", chars "caron x", [], none, none⟩] =
      exactTier (chars "Caron") [⟨chars "1", chars "caron", [], none, none⟩,
        ⟨chars "2", chars "caron x", [], none, none⟩] ∧
    findMatches (chars "Caron") [⟨chars "1", chars "caron", [], none, none⟩,
        ⟨chars "2", chars "caron x", [], none, none⟩] noHint = [chars "1"] := by
  refine ⟨by decide, ?_, ?_⟩
  · exact ((claim_C1_strict_cascade (chars "Caron") _ noHint).1 (by decide)).1
  · have := ((claim_C1_strict_cascade (chars "Caron")
      [⟨chars "1", chars "caron", [], none, none⟩,
       ⟨chars "2", chars "caron x", [], none, none⟩] noHint).1 (by decide)).2 rfl
    rw [this]
    decide

/-! ### C2 -/

/-- C2: when the fuzzy tier executes (both earlier tiers came up empty),
every pool entity with a non-empty name scoring at least 75 against the
record name is in the produced candidate set — the tier collects all
qualifying candidates rather than a single best one.  (Entities parsed by the
loader always have a non-empty name: `parseCSV` drops rows without one.) -/
theorem claim_C2_fuzzy_collects_all (name : List Char) (ref : List OpenSkiMapEntity)
    (e : OpenSkiMapEntity)
    (hex : exactTier name ref = []) (hnorm : normalizedTier name ref = [])
    (he : e ∈ ref) (hname : e.name ≠ []) (hscore : 75 ≤ fuzzyScore name e.name) :
    e ∈ matchCandidates name ref := by
  unfold matchCandidates
  rw [hex, hnorm]
  simp only [ne_eq, not_true_eq_false, if_false]
  exact List.mem_filter.mpr ⟨he, by simp [hname, hscore]⟩

/-- C2 witness: with an empty exact and normalized tier, the candidate named
"abcdefg" scores 88 ≥ 75 against "abcdefgh" and is collected. -/
theorem claim_C2_fuzzy_collects_all_witness :
    75 ≤ fuzzyScore (chars "abcdefgh") (chars "abcdefg") ∧
    (⟨chars "7", chars "abcdefg", [], none, none⟩ : OpenSkiMapEntity) ∈
      matchCandidates (chars "abcdefgh") [⟨chars "7", chars "abcdefg", [], none, none⟩] :=
  ⟨by decide,
   claim_C2_fuzzy_collects_all (chars "abcdefgh") _ _
     (by decide) (by decide) (by decide) (by decide) (by decide)⟩

/-! ### C4 -/

/-- C4: disambiguation never empties a non-empty candidate set — for every
hint the returned id list is non-empty, and when the hint filter comes up
empty the ids of the full unfiltered candidate set are returned; hence the
pipeline's result after disambiguation is non-empty whenever the cascade
produced at least one candidate. -/
theorem claim_C4_disambiguation_never_empties (cands : List OpenSkiMapEntity)
    (hint : MatchingHint) (name : List Char) (ref : List OpenSkiMapEntity)
    (hne : cands ≠ []) :
    disambiguate cands hint ≠ [] ∧
    (hintActive hint = true → cands.filter (hintPred hint) = [] →
      disambiguate cands hint = cands.map (fun c => c.id)) ∧
    (name ≠ [] → matchCandidates name ref ≠ [] → findMatches name ref hint ≠ []) := by
  have main : ∀ l : List OpenSkiMapEntity, l ≠ [] → disambiguate l hint ≠ [] := by
    intro l hl
    match l with
    | [] => exact absurd rfl hl
    | [c] => simp [disambiguate]
    | c :: d :: rest =>
      simp only [disambiguate]
      split_ifs with h1 h2
      · intro hmap
        exact h2 (List.map_eq_nil_iff.mp hmap)
      · simp
      · simp
  refine ⟨main cands hne, fun hact hfil => ?_, fun hn hc => ?_⟩
  · match cands with
    | [] => exact absurd rfl hne
    | [c] => simp [disambiguate]
    | c :: d :: rest =>
      simp only [disambiguate, hact, if_true, hfil]
      simp
  · rw [findMatches, if_neg hn]
    exact main _ hc

/-- C4 witness: two same-named candidates with a hint matching neither's
attributes — the filter empties, the full candidate set's ids come back, and
the pipeline result is non-empty. -/
theorem claim_C4_disambiguation_never_empties_witness :
    ([entGondola, entNoType] : List OpenSkiMapEntity) ≠ [] ∧
    disambiguate [entGondola, entNoType] hintChair ≠ [] :=
  ⟨by decide,
   (claim_C4_disambiguation_never_empties [entGondola, entNoType] hintChair
      (chars "x") [] (by decide)).1⟩

/-! ### C7 -/

/-- Every piece produced by `splitSemiGo acc s` is an infix of
`acc.reverse ++ s`. -/
lemma splitSemiGo_pieces : ∀ (s acc : List Char) (x : List Char),
    x ∈ splitSemiGo acc s → ∃ pre suf, pre ++ x ++ suf = acc.reverse ++ s := by
  intro s
  induction s with
  | nil =>
    intro acc x hx
    simp only [splitSemiGo, List.mem_singleton] at hx
    exact ⟨[], [], by simp [hx]⟩
  | cons c cs ih =>
    intro acc x hx
    simp only [splitSemiGo] at hx
    by_cases hc : c = ';'
    · rw [if_pos hc] at hx
      rcases List.mem_cons.mp hx with rfl | hx
      · exact ⟨[], c :: cs, by simp⟩
      · obtain ⟨pre, suf, hps⟩ := ih [] x hx
        exact ⟨acc.reverse ++ [c] ++ pre, suf, by
          simp only [List.reverse_nil, List.nil_append] at hps
          simp [← hps]⟩
    · rw [if_neg hc] at hx
      obtain ⟨pre, suf, hps⟩ := ih (c :: acc) x hx
      exact ⟨pre, suf, by simpa using hps⟩

/-- Every element of `splitSemi s` occurs contiguously in `s`. -/
lemma splitSemi_mem_substring {s x : List Char} (hx : x ∈ splitSemi s) : x <:+: s := by
  obtain ⟨pre, suf, h⟩ := splitSemiGo_pieces s [] x hx
  exact ⟨pre, suf, by simpa using h⟩

/-- C7 counterexample: a row whose scope cell is "abc" is retained for the
requested scope id "b", although "b" is not an element of the cell read as a
`;`-separated list — retention is raw substring containment, not
list intersection. -/
theorem claim_C7_counterexample :
    liftRetained [chars "b"] (⟨chars "X", chars "n", chars "abc", none, none⟩ : OpenSkiMapEntity)
      = true ∧
    scopeListIntersects (chars "abc") [chars "b"] = false ∧
    splitSemi (chars "abc") = [chars "abc"] := by
  decide

/-- C7 amended: a row is retained iff its scope cell is non-empty and some
requested scope id occurs as a substring of the raw cell (runs additionally
need a non-empty name).  Membership in the cell read as a `;`-separated list
implies substring occurrence, so every row the spec's list-intersection
reading would keep is retained — but not conversely. -/
theorem claim_C7_substring_retention (row : OpenSkiMapEntity) (ids : List (List Char)) :
    (liftRetained ids row = true ↔
      row.ski_area_ids ≠ [] ∧ ∃ i ∈ ids, i <:+: row.ski_area_ids) ∧
    (runRetained ids row = true ↔
      row.ski_area_ids ≠ [] ∧ row.name ≠ [] ∧ ∃ i ∈ ids, i <:+: row.ski_area_ids) ∧
    (∀ i ∈ ids, i ∈ splitSemi row.ski_area_ids → row.ski_area_ids ≠ [] →
      liftRetained ids row = true) := by
  refine ⟨?_, ?_, fun i hi hmem hne => ?_⟩
  · simp [liftRetained, List.any_eq_true, and_assoc]
  · simp [runRetained, List.any_eq_true, and_assoc]
  · simp only [liftRetained, Bool.and_eq_true, decide_eq_true_eq, List.any_eq_true]
    exact ⟨hne, i, hi, by simpa using splitSemi_mem_substring hmem⟩

/-- C7 witness: a row whose cell is exactly the requested id "abc" is
retained, and the characterization applies to it. -/
theorem claim_C7_substring_retention_witness :
    liftRetained [chars "abc"]
        (⟨chars "Y", chars "n", chars "abc", none, none⟩ : OpenSkiMapEntity) = true :=
  (claim_C7_substring_retention ⟨chars "Y", chars "n", chars "abc", none, none⟩
      [chars "abc"]).1.mpr ⟨by decide, chars "abc", by decide, by decide⟩

/-! ### C10 -/

/-- Base equation of the Levenshtein recursion: empty first string. -/
lemma levAux_nil_left (ys : List Char) : levAux [] ys = ys.length := by
  simp [levAux]

/-- Base equation of the Levenshtein recursion: empty second string. -/
lemma levAux_nil_right (xs : List Char) : levAux xs [] = xs.length := by
  match xs with
  | [] => simp [levAux]
  | x :: xs => simp [levAux]

/-- Step equation of the Levenshtein recursion. -/
lemma levAux_cons (x y : Char) (xs ys : List Char) :
    levAux (x :: xs) (y :: ys) =
      min (min (levAux xs (y :: ys) + 1) (levAux (x :: xs) ys + 1))
          (levAux xs ys + (if x = y then 0 else 1)) := by
  simp [levAux]

/-- The Levenshtein recursion is symmetric in its arguments. -/
lemma levAux_comm (xs ys : List Char) : levAux xs ys = levAux ys xs := by
  have H : ∀ n (xs ys : List Char), xs.length + ys.length ≤ n →
      levAux xs ys = levAux ys xs := by
    intro n
    induction n with
    | zero =>
      intro xs ys h
      match xs, ys with
      | [], [] => rfl
      | [], y :: ys => simp at h
      | x :: xs, ys => simp at h
    | succ n ih =>
      intro xs ys h
      match xs, ys with
      | [], ys => rw [levAux_nil_left, levAux_nil_right]
      | x :: xs, [] => rw [levAux_nil_left, levAux_nil_right]
      | x :: xs, y :: ys =>
        rw [levAux_cons, levAux_cons]
        simp only [List.length_cons] at h
        have h1 : levAux xs (y :: ys) = levAux (y :: ys) xs := ih _ _ (by simp; omega)
        have h2 : levAux (x :: xs) ys = levAux ys (x :: xs) := ih _ _ (by simp; omega)
        have h3 : levAux xs ys = levAux ys xs := ih _ _ (by omega)
        have h4 : (if x = y then 0 else 1) = (if y = x then 0 else 1) := by
          by_cases hxy : x = y
          · simp [hxy]
          · rw [if_neg hxy, if_neg (fun hyx => hxy hyx.symm)]
        rw [h1, h2, h3, h4]
        omega
  exact H (xs.length + ys.length) xs ys le_rfl

/-- The matrix-valued edit distance is symmetric. -/
lemma levenshtein_comm (s1 s2 : List Char) : levenshtein s1 s2 = levenshtein s2 s1 :=
  levAux_comm _ _

/-- The score body is symmetric in the two normalized strings. -/
lemma fuzzyCore_comm (s1 s2 : List Char) : fuzzyCore s1 s2 = fuzzyCore s2 s1 := by
  by_cases h1 : s1 = s2
  · subst h1
    rfl
  · have h1' : ¬(s2 = s1) := fun h => h1 h.symm
    unfold fuzzyCore
    simp only [if_neg h1, if_neg h1']
    by_cases h2 : s1 = [] ∨ s2 = []
    · have h2' : s2 = [] ∨ s1 = [] := h2.symm
      simp only [if_pos h2, if_pos h2']
    · have h2' : ¬(s2 = [] ∨ s1 = []) := fun h => h2 h.symm
      simp only [if_neg h2, if_neg h2']
      by_cases h3 : s2 <:+: s1 ∨ s1 <:+: s2
      · have h3' : s1 <:+: s2 ∨ s2 <:+: s1 := h3.symm
        simp only [if_pos h3, if_pos h3']
        rw [min_comm s2.length s1.length, max_comm s2.length s1.length]
      · have h3' : ¬(s1 <:+: s2 ∨ s2 <:+: s1) := fun h => h3 h.symm
        simp only [if_neg h3, if_neg h3']
        rw [max_comm s2.length s1.length, levenshtein_comm s2 s1]

/-- C10: the fuzzy score is symmetric — equality, containment and
Levenshtein branches all score the same when the arguments are swapped. -/
theorem claim_C10_fuzzyScore_symm (a b : List Char) : fuzzyScore a b = fuzzyScore b a :=
  fuzzyCore_comm _ _

/-! ### C9 -/

/-- A successful `Map.get` returns a value that was inserted. -/
lemma mapGet_mem {pairs : List (List Char × OpenSkiMapEntity)} {k : List Char}
    {e : OpenSkiMapEntity} (h : mapGet pairs k = some e) : ∃ p ∈ pairs, p.2 = e := by
  unfold mapGet at h
  cases hf : pairs.reverse.find? (fun p => decide (p.1 = k)) with
  | none => rw [hf] at h; simp at h
  | some p =>
    rw [hf] at h
    have h' : some p.2 = some e := h
    exact ⟨p, List.mem_reverse.mp (List.mem_of_find?_eq_some hf), Option.some.inj h'⟩

/-- Values inserted into `exactLookup` are pool entities. -/
lemma exactPairs_mem {pool : List OpenSkiMapEntity} {p : List Char × OpenSkiMapEntity}
    (hp : p ∈ exactPairs pool) : p.2 ∈ pool := by
  unfold exactPairs at hp
  obtain ⟨e, he, hmem⟩ := List.mem_flatMap.mp hp
  by_cases hn : e.name = []
  · rw [if_pos hn] at hmem
    simp at hmem
  · rw [if_neg hn] at hmem
    rcases List.mem_cons.mp hmem with rfl | hmem
    · exact he
    · rcases List.mem_singleton.mp hmem with rfl
      exact he

/-- Values inserted into `normalizedLookup` are pool entities. -/
lemma normPairs_mem {pool : List OpenSkiMapEntity} {p : List Char × OpenSkiMapEntity}
    (hp : p ∈ normPairs pool) : p.2 ∈ pool := by
  unfold normPairs at hp
  obtain ⟨e, he, hmem⟩ := List.mem_flatMap.mp hp
  by_cases hn : e.name = []
  · rw [if_pos hn] at hmem
    simp at hmem
  · rw [if_neg hn] at hmem
    rcases List.mem_singleton.mp hmem with rfl
    exact he

/-- The fuzzy scan only ever returns the initial best or a pool entity. -/
lemma fuzzyBest_mem (name : List Char) :
    ∀ (l : List OpenSkiMapEntity) (acc : Nat × Option OpenSkiMapEntity)
      (e : OpenSkiMapEntity),
      (l.foldl (fuzzyBestStep name) acc).2 = some e → acc.2 = some e ∨ e ∈ l := by
  intro l
  induction l with
  | nil => intro acc e h; exact Or.inl h
  | cons a as ih =>
    intro acc e h
    rcases ih (fuzzyBestStep name acc a) e h with h' | h'
    · unfold fuzzyBestStep at h'
      split_ifs at h' with hn hs
      · exact Or.inl h'
      · simp only [Option.some.injEq] at h'
        exact Or.inr (h' ▸ List.mem_cons_self a as)
      · exact Or.inl h'
    · exact Or.inr (List.mem_cons_of_mem a h')

/-- Appending a mapped record with the id of a pool entity preserves the
invariant. -/
lemma mapInv_insert {pool : List OpenSkiMapEntity} {st : MapNamesState}
    {m : MappedEntry} {e : OpenSkiMapEntity} (hinv : mapInv pool st)
    (hid : m.openskimap_id = e.id) (he : e ∈ pool) :
    mapInv pool ⟨st.mapped ++ [m], st.unmapped, insert e.id st.mappedIds⟩ := by
  obtain ⟨h1, h2⟩ := hinv
  constructor
  · show insert e.id st.mappedIds =
      ((st.mapped ++ [m]).map (fun x => x.openskimap_id)).toFinset
    rw [List.map_append, List.toFinset_append, ← h1]
    simp only [List.map_cons, List.map_nil, List.toFinset_cons, List.toFinset_nil, hid]
    rw [Finset.insert_eq, Finset.union_comm]
    simp
  · intro x hx
    rcases Finset.mem_insert.mp hx with rfl | hx
    · exact List.mem_toFinset.mpr (List.mem_map.mpr ⟨e, he, rfl⟩)
    · exact h2 hx

/-- One mapper iteration preserves the invariant. -/
lemma mapNamesStep_invariant (pool : List OpenSkiMapEntity) (st : MapNamesState)
    (nm : List Char) (hinv : mapInv pool st) :
    mapInv pool (mapNamesStep (exactPairs pool) (normPairs pool) pool st nm) := by
  unfold mapNamesStep
  by_cases h0 : nm = []
  · rw [if_pos h0]
    exact hinv
  · rw [if_neg h0]
    cases hx : (mapGet (exactPairs pool) nm).or (mapGet (exactPairs pool) (lowerStr nm)) with
    | some e =>
      have he : e ∈ pool := by
        cases hg1 : mapGet (exactPairs pool) nm with
        | some e1 =>
          rw [hg1] at hx
          have hx' : (some e1 : Option OpenSkiMapEntity) = some e := hx
          rcases Option.some.inj hx' with rfl
          obtain ⟨p, hp, hpe⟩ := mapGet_mem hg1
          exact hpe ▸ exactPairs_mem hp
        | none =>
          rw [hg1] at hx
          have hx' : mapGet (exactPairs pool) (lowerStr nm) = some e := hx
          obtain ⟨p, hp, hpe⟩ := mapGet_mem hx'
          exact hpe ▸ exactPairs_mem hp
      exact mapInv_insert hinv rfl he
    | none =>
      cases hn : mapGet (normPairs pool) (normalizeName nm) with
      | some e =>
        have he : e ∈ pool := by
          obtain ⟨p, hp, hpe⟩ := mapGet_mem hn
          exact hpe ▸ normPairs_mem hp
        exact mapInv_insert hinv rfl he
      | none =>
        cases hfz : fuzzyBest pool nm with
        | mk score best =>
          cases best with
          | some e =>
            have he : e ∈ pool := by
              have : (pool.foldl (fuzzyBestStep nm) (0, none)).2 = some e := by
                rw [show pool.foldl (fuzzyBestStep nm) (0, none) = fuzzyBest pool nm from rfl,
                  hfz]
              rcases fuzzyBest_mem nm pool (0, none) e this with h | h
              · simp at h
              · exact h
            exact mapInv_insert hinv rfl he
          | none => exact ⟨hinv.1, hinv.2⟩

/-- The whole mapper loop preserves the invariant. -/
lemma mapNames_loop_invariant (pool : List OpenSkiMapEntity) :
    ∀ (names : List (List Char)) (st : MapNamesState), mapInv pool st →
      mapInv pool (names.foldl (mapNamesStep (exactPairs pool) (normPairs pool) pool) st) := by
  intro names
  induction names with
  | nil => intro st h; exact h
  | cons nm rest ih =>
    intro st h
    exact ih _ (mapNamesStep_invariant pool st nm h)

/-- C9: the mapper's coverage equals the number of distinct matched ids
divided by the reference-pool size times 100, always lies in `[0, 100]`, and
is exactly 0 — not `NaN` and not an error — when the pool is empty. -/
theorem claim_C9_coverage (onlineNames : List (List Char)) (pool : List OpenSkiMapEntity) :
    (0 < pool.length →
      (mapNames onlineNames pool).coverage =
        (matchedUniqueCount (mapNames onlineNames pool) : ℚ) / (pool.length : ℚ) * 100) ∧
    0 ≤ (mapNames onlineNames pool).coverage ∧
    (mapNames onlineNames pool).coverage ≤ 100 ∧
    (pool = [] → (mapNames onlineNames pool).coverage = 0) := by
  have hinv : mapInv pool
      (onlineNames.foldl (mapNamesStep (exactPairs pool) (normPairs pool) pool) ⟨[], [], ∅⟩) :=
    mapNames_loop_invariant pool onlineNames ⟨[], [], ∅⟩ ⟨by simp, by simp⟩
  set F := onlineNames.foldl (mapNamesStep (exactPairs pool) (normPairs pool) pool) ⟨[], [], ∅⟩
    with hF
  have hcov : (mapNames onlineNames pool).coverage =
      if 0 < pool.length then (F.mappedIds.card : ℚ) / (pool.length : ℚ) * 100 else 0 := rfl
  have hcount : matchedUniqueCount (mapNames onlineNames pool) =
      (F.mapped.map (fun m => m.openskimap_id)).toFinset.card := rfl
  have hcard : F.mappedIds.card = matchedUniqueCount (mapNames onlineNames pool) := by
    rw [hcount, hinv.1]
  have hle : F.mappedIds.card ≤ pool.length := by
    calc F.mappedIds.card ≤ (poolIds pool).card := Finset.card_le_card hinv.2
    _ ≤ (pool.map (fun e => e.id)).length := List.toFinset_card_le _
    _ = pool.length := List.length_map _ _
  refine ⟨fun hpos => ?_, ?_, ?_, fun hnil => ?_⟩
  · rw [hcov, if_pos hpos, hcard]
  · rw [hcov]
    split_ifs with hpos
    · positivity
    · exact le_refl 0
  · rw [hcov]
    split_ifs with hpos
    · have hn : (0 : ℚ) < (pool.length : ℚ) := by exact_mod_cast hpos
      have hq : (F.mappedIds.card : ℚ) / (pool.length : ℚ) ≤ 1 := by
        rw [div_le_one hn]
        exact_mod_cast hle
      calc (F.mappedIds.card : ℚ) / (pool.length : ℚ) * 100 ≤ 1 * 100 :=
            mul_le_mul_of_nonneg_right hq (by norm_num)
      _ = 100 := by norm_num
    · norm_num
  · rw [hcov, if_neg (by simp [hnil])]

/-- C9 witness: a one-entity pool fully matched by one record has coverage
`1/1·100`. -/
theorem claim_C9_coverage_witness :
    0 < ([entDash] : List OpenSkiMapEntity).length ∧
    (mapNames [chars "-"] [entDash]).coverage =
      (matchedUniqueCount (mapNames [chars "-"] [entDash]) : ℚ) /
        (([entDash] : List OpenSkiMapEntity).length : ℚ) * 100 :=
  ⟨by decide, (claim_C9_coverage [chars "-"] [entDash]).1 (by decide)⟩

/-! ### C3: character-level lemmas -/

/-- Evaluation of `Char.ofNat` below the surrogate range. -/
lemma toNat_ofNat_of_lt {n : Nat} (h : n < 55296) : (Char.ofNat n).toNat = n := by
  have hv : n.isValidChar := Or.inl h
  simp [Char.ofNat, hv, Char.ofNatAux, Char.toNat, UInt32.toNat, UInt32.ofNatCore]

/-- Lowercasing is idempotent on every character. -/
lemma lowerChar_lowerChar (c : Char) : lowerChar (lowerChar c) = lowerChar c := by
  unfold lowerChar
  by_cases h : (65 ≤ c.toNat ∧ c.toNat ≤ 90) ∨
      (192 ≤ c.toNat ∧ c.toNat ≤ 222 ∧ c.toNat ≠ 215)
  · rw [if_pos h]
    have hlt : c.toNat + 32 < 55296 := by
      rcases h with ⟨h1, h2⟩ | ⟨h1, h2, h3⟩ <;> omega
    have ht : (Char.ofNat (c.toNat + 32)).toNat = c.toNat + 32 := toNat_ofNat_of_lt hlt
    have hn : ¬((65 ≤ (Char.ofNat (c.toNat + 32)).toNat ∧
        (Char.ofNat (c.toNat + 32)).toNat ≤ 90) ∨
        (192 ≤ (Char.ofNat (c.toNat + 32)).toNat ∧
          (Char.ofNat (c.toNat + 32)).toNat ≤ 222 ∧
          (Char.ofNat (c.toNat + 32)).toNat ≠ 215)) := by
      rw [ht]
      rcases h with ⟨h1, h2⟩ | ⟨h1, h2, h3⟩ <;> omega
    rw [if_neg hn]
  · rw [if_neg h, if_neg h]

/-- The fold table either fixes a character or produces one of six base
letters. -/
lemma foldChar_cases (c : Char) :
    foldChar c = c ∨ foldChar c ∈ ['e', 'a', 'u', 'o', 'c', 'n'] := by
  unfold foldChar
  split_ifs <;> simp

/-- Accent folding is idempotent on every character. -/
lemma foldChar_foldChar (c : Char) : foldChar (foldChar c) = foldChar c := by
  rcases foldChar_cases c with h | h
  · rw [h]
    exact h
  · simp only [List.mem_cons, List.not_mem_nil, or_false] at h
    rcases h with h | h | h | h | h | h <;> rw [h] <;> decide

/-- Accent folding preserves separator classification. -/
lemma isSep_foldChar (c : Char) : isSep (foldChar c) = isSep c := by
  unfold foldChar
  split_ifs with h1 h2 h3 h4 h5 h6
  · rcases h1 with h | h | h | h <;> subst h <;> decide
  · rcases h2 with h | h | h <;> subst h <;> decide
  · rcases h3 with h | h <;> subst h <;> decide
  · rcases h4 with h | h <;> subst h <;> decide
  · subst h5; decide
  · subst h6; decide
  · rfl

/-- Accent folding preserves lowercase-fixedness. -/
lemma lowerChar_foldChar (c : Char) (h : lowerChar c = c) :
    lowerChar (foldChar c) = foldChar c := by
  rcases foldChar_cases c with hf | hf
  · rw [hf]
    exact h
  · simp only [List.mem_cons, List.not_mem_nil, or_false] at hf
    rcases hf with hf | hf | hf | hf | hf | hf <;> rw [hf] <;> decide

/-! ### C3: trim lemmas -/

/-- The head surviving a `dropWhile` fails the predicate. -/
lemma dropWhile_head_false {p : Char → Bool} :
    ∀ (l : List Char) (c : Char), (l.dropWhile p).head? = some c → p c = false := by
  intro l
  induction l with
  | nil => intro c h; simp [List.dropWhile] at h
  | cons a as ih =>
    intro c h
    rw [List.dropWhile_cons] at h
    split_ifs at h with hp
    · exact ih c h
    · simp only [List.head?_cons, Option.some.injEq] at h
      subst h
      simpa using hp

/-- A list whose head fails `isWs` is fixed by `dropWhile isWs`. -/
lemma dropWhile_eq_self_of_head (l : List Char)
    (h : ∀ c, l.head? = some c → isWs c = false) : l.dropWhile isWs = l := by
  cases l with
  | nil => rfl
  | cons a as =>
    rw [List.dropWhile_cons, if_neg]
    simp [h a rfl]

/-- The trimmed string is a prefix of the left-trimmed string;
in particular its head is never whitespace. -/
lemma trimStr_head_false (s : List Char) (c : Char)
    (h : (trimStr s).head? = some c) : isWs c = false := by
  unfold trimStr at h
  have hpre : ((s.dropWhile isWs).reverse.dropWhile isWs).reverse <+: s.dropWhile isWs := by
    rw [← List.reverse_suffix, List.reverse_reverse]
    exact List.dropWhile_suffix _
  obtain ⟨r, hr⟩ := hpre
  apply dropWhile_head_false s c
  rw [← hr, List.head?_append, h]
  rfl

/-- The last character of the trimmed string is never whitespace. -/
lemma trimStr_getLast_false (s : List Char) (c : Char)
    (h : (trimStr s).reverse.head? = some c) : isWs c = false := by
  unfold trimStr at h
  rw [List.reverse_reverse] at h
  exact dropWhile_head_false _ c h

/-- A string with no whitespace at either end is fixed by `trim`. -/
lemma trimStr_eq_self (t : List Char)
    (h1 : ∀ c, t.head? = some c → isWs c = false)
    (h2 : ∀ c, t.reverse.head? = some c → isWs c = false) : trimStr t = t := by
  unfold trimStr
  rw [dropWhile_eq_self_of_head t h1, dropWhile_eq_self_of_head t.reverse h2,
    List.reverse_reverse]

/-- Trimming is idempotent. -/
lemma trimStr_trimStr (s : List Char) : trimStr (trimStr s) = trimStr s :=
  trimStr_eq_self _ (trimStr_head_false s) (trimStr_getLast_false s)

/-- Trimming only removes characters. -/
lemma trimStr_subset (s : List Char) : trimStr s ⊆ s := by
  intro c hc
  unfold trimStr at hc
  rw [List.mem_reverse] at hc
  have hc1 : c ∈ (s.dropWhile isWs).reverse := (List.dropWhile_suffix _).subset hc
  rw [List.mem_reverse] at hc1
  exact (List.dropWhile_suffix _).subset hc1

/-! ### C3: collapse lemmas -/

/-- A character of a collapsed string is either the emitted space or an
original non-separator character. -/
lemma mem_collapseGo {c : Char} :
    ∀ (s : List Char) (b : Bool), c ∈ collapseGo b s →
      c = ' ' ∨ (c ∈ s ∧ isSep c = false) := by
  intro s
  induction s with
  | nil => intro b h; simp [collapseGo] at h
  | cons a as ih =>
    intro b h
    unfold collapseGo at h
    by_cases ha : isSep a = true
    · rw [if_pos ha] at h
      cases b with
      | true =>
        rw [if_pos rfl] at h
        rcases ih true h with h' | ⟨h1, h2⟩
        · exact Or.inl h'
        · exact Or.inr ⟨List.mem_cons_of_mem a h1, h2⟩
      | false =>
        simp only [Bool.false_eq_true, if_false] at h
        rcases List.mem_cons.mp h with rfl | h'
        · exact Or.inl rfl
        · rcases ih true h' with h'' | ⟨h1, h2⟩
          · exact Or.inl h''
          · exact Or.inr ⟨List.mem_cons_of_mem a h1, h2⟩
    · rw [if_neg ha] at h
      rcases List.mem_cons.mp h with rfl | h'
      · exact Or.inr ⟨List.mem_cons_self _ _, by simpa using ha⟩
      · rcases ih false h' with h'' | ⟨h1, h2⟩
        · exact Or.inl h''
        · exact Or.inr ⟨List.mem_cons_of_mem a h1, h2⟩

/-- Collapsed strings have no two adjacent separators, and in swallowing
mode the output never starts with a separator. -/
lemma chain'_collapseGo :
    ∀ s : List Char,
      List.Chain' nsR (collapseGo false s) ∧ List.Chain' nsR (collapseGo true s) ∧
      (∀ c, (collapseGo true s).head? = some c → isSep c = false) := by
  intro s
  induction s with
  | nil =>
    refine ⟨List.chain'_nil, List.chain'_nil, ?_⟩
    intro c h
    simp [collapseGo] at h
  | cons a as ih =>
    obtain ⟨ihf, iht, ihh⟩ := ih
    by_cases ha : isSep a = true
    · have e1 : collapseGo false (a :: as) = ' ' :: collapseGo true as := by
        simp [collapseGo, ha]
      have e2 : collapseGo true (a :: as) = collapseGo true as := by
        simp [collapseGo, ha]
      refine ⟨?_, ?_, ?_⟩
      · rw [e1, List.chain'_cons']
        refine ⟨fun y hy => ?_, iht⟩
        intro hpair
        have hy' : (collapseGo true as).head? = some y := hy
        rw [ihh y hy'] at hpair
        exact absurd hpair.2 (by simp)
      · rw [e2]
        exact iht
      · intro c h
        rw [e2] at h
        exact ihh c h
    · have ha' : isSep a = false := by simpa using ha
      have e1 : collapseGo false (a :: as) = a :: collapseGo false as := by
        simp [collapseGo, ha]
      have e2 : collapseGo true (a :: as) = a :: collapseGo false as := by
        simp [collapseGo, ha]
      refine ⟨?_, ?_, ?_⟩
      · rw [e1, List.chain'_cons']
        refine ⟨fun y _ => ?_, ihf⟩
        intro hpair
        rw [ha'] at hpair
        exact absurd hpair.1 (by simp)
      · rw [e2, List.chain'_cons']
        refine ⟨fun y _ => ?_, ihf⟩
        intro hpair
        rw [ha'] at hpair
        exact absurd hpair.1 (by simp)
      · intro c h
        rw [e2] at h
        simp only [List.head?_cons, Option.some.injEq] at h
        subst h
        exact ha'

/-- A string whose separators are single spaces, none adjacent, is fixed by
the collapse pass. -/
lemma collapseGo_eq_self :
    ∀ t : List Char, (∀ c ∈ t, isSep c = true → c = ' ') → List.Chain' nsR t →
      collapseGo false t = t ∧
      ((∀ c, t.head? = some c → isSep c = false) → collapseGo true t = t) := by
  intro t
  induction t with
  | nil => exact fun _ _ => ⟨rfl, fun _ => rfl⟩
  | cons a as ih =>
    intro hsep hch
    have hch2 := List.chain'_cons'.mp hch
    have hsep' : ∀ c ∈ as, isSep c = true → c = ' ' :=
      fun c hc => hsep c (List.mem_cons_of_mem a hc)
    obtain ⟨ihf, iht⟩ := ih hsep' hch2.2
    by_cases ha : isSep a = true
    · have haa : a = ' ' := hsep a (List.mem_cons_self a as) ha
      have hashead : ∀ c, as.head? = some c → isSep c = false := by
        intro c hc
        have hy : c ∈ as.head? := by rw [hc]; rfl
        have := hch2.1 c hy
        by_contra hcc
        exact this ⟨ha, by simpa using hcc⟩
      have e1 : collapseGo false (a :: as) = ' ' :: collapseGo true as := by
        simp [collapseGo, ha]
      constructor
      · rw [e1, iht hashead, ← haa]
      · intro hh
        have := hh a rfl
        rw [ha] at this
        exact absurd this (by simp)
    · have e1 : collapseGo false (a :: as) = a :: collapseGo false as := by
        simp [collapseGo, ha]
      have e2 : collapseGo true (a :: as) = a :: collapseGo false as := by
        simp [collapseGo, ha]
      constructor
      · rw [e1, ihf]
      · intro _
        rw [e2, ihf]

/-! ### C3: article-stripping lemmas and assembly -/

/-- A successful alternative match leaves a suffix of the input. -/
lemma tryStrip_suffix {a s r : List Char} (h : tryStrip a s = some r) : r <:+ s := by
  simp only [tryStrip] at h
  split_ifs at h with hc
  rcases Option.some.inj h with rfl
  exact (List.dropWhile_suffix _).trans (List.drop_suffix _ _)

/-- Article stripping leaves a suffix of the input. -/
lemma stripArticle_suffix (s : List Char) : stripArticle s <:+ s := by
  unfold stripArticle
  cases h : articles.findSome? (fun a => tryStrip a s) with
  | none => exact List.suffix_refl s
  | some r =>
    obtain ⟨a, _, ha⟩ := List.exists_of_findSome?_eq_some h
    simpa using tryStrip_suffix ha

/-- Structure of the characters of a normalized name: every one is the fold
image of either the emitted space or a non-separator lowercased character. -/
lemma normalizeName_mem_struct {s : List Char} {c : Char} (hc : c ∈ normalizeName s) :
    ∃ d, c = foldChar d ∧ (d = ' ' ∨ (isSep d = false ∧ ∃ x, d = lowerChar x)) := by
  unfold normalizeName at hc
  have hc1 : c ∈ (collapseStr (stripArticle (lowerStr (trimStr s)))).map foldChar :=
    trimStr_subset _ hc
  obtain ⟨d, hd, hdc⟩ := List.mem_map.mp hc1
  refine ⟨d, hdc.symm, ?_⟩
  rcases mem_collapseGo _ _ hd with h | ⟨hmem, hns⟩
  · exact Or.inl h
  · refine Or.inr ⟨hns, ?_⟩
    have hmem2 : d ∈ lowerStr (trimStr s) := (stripArticle_suffix _).subset hmem
    obtain ⟨x, _, hx⟩ := List.mem_map.mp hmem2
    exact ⟨x, hx.symm⟩

/-- Every character of a normalized name is fixed by lowercasing. -/
lemma normalizeName_lower_fixed {s : List Char} :
    ∀ c ∈ normalizeName s, lowerChar c = c := by
  intro c hc
  obtain ⟨d, rfl, hd⟩ := normalizeName_mem_struct hc
  rcases hd with rfl | ⟨_, x, rfl⟩
  · decide
  · exact lowerChar_foldChar _ (lowerChar_lowerChar x)

/-- Every character of a normalized name is fixed by accent folding. -/
lemma normalizeName_fold_fixed {s : List Char} :
    ∀ c ∈ normalizeName s, foldChar c = c := by
  intro c hc
  obtain ⟨d, rfl, _⟩ := normalizeName_mem_struct hc
  exact foldChar_foldChar d

/-- Every separator character of a normalized name is the single space. -/
lemma normalizeName_sep_space {s : List Char} :
    ∀ c ∈ normalizeName s, isSep c = true → c = ' ' := by
  intro c hc hsep
  obtain ⟨d, rfl, hd⟩ := normalizeName_mem_struct hc
  rcases hd with rfl | ⟨hns, x, rfl⟩
  · decide
  · rw [isSep_foldChar] at hsep
    rw [hsep] at hns
    exact absurd hns (by simp)

/-- The no-adjacent-separators invariant is stable under reversal. -/
lemma chain'_nsR_reverse {l : List Char} (h : List.Chain' nsR l) :
    List.Chain' nsR l.reverse := by
  rw [List.chain'_reverse]
  exact h.imp (fun a b hab hpair => hab ⟨hpair.2, hpair.1⟩)

/-- Trimming preserves the no-adjacent-separators invariant. -/
lemma chain'_trimStr {l : List Char} (h : List.Chain' nsR l) :
    List.Chain' nsR (trimStr l) := by
  unfold trimStr
  exact chain'_nsR_reverse
    ((chain'_nsR_reverse (h.suffix (List.dropWhile_suffix _))).suffix
      (List.dropWhile_suffix _))

/-- A normalized name has no two adjacent separator characters. -/
lemma normalizeName_chain (s : List Char) : List.Chain' nsR (normalizeName s) := by
  unfold normalizeName
  apply chain'_trimStr
  rw [List.chain'_map]
  exact (chain'_collapseGo (stripArticle (lowerStr (trimStr s)))).1.imp
    (fun a b hab hpair => by
      rw [isSep_foldChar, isSep_foldChar] at hpair
      exact hab hpair)

/-- A normalized name is fixed by re-trimming. -/
lemma normalizeName_trim_fixed (s : List Char) :
    trimStr (normalizeName s) = normalizeName s := by
  unfold normalizeName
  exact trimStr_trimStr _

/-- Mapping a function that fixes every element is the identity. -/
lemma map_eq_self_of {f : Char → Char} {l : List Char} (h : ∀ c ∈ l, f c = c) :
    l.map f = l :=
  (List.map_congr_left h).trans (List.map_id l)

/-- A normalized name is fixed by re-lowercasing. -/
lemma normalizeName_lower_eq (s : List Char) :
    lowerStr (normalizeName s) = normalizeName s :=
  map_eq_self_of normalizeName_lower_fixed

/-- A normalized name is fixed by re-folding. -/
lemma normalizeName_fold_eq (s : List Char) :
    (normalizeName s).map foldChar = normalizeName s :=
  map_eq_self_of normalizeName_fold_fixed

/-- A normalized name is fixed by re-collapsing. -/
lemma normalizeName_collapse_eq (s : List Char) :
    collapseStr (normalizeName s) = normalizeName s :=
  (collapseGo_eq_self (normalizeName s) normalizeName_sep_space (normalizeName_chain s)).1

/-- C3 counterexample: normalization is not idempotent — the collapse step
runs after article stripping, so `"le-chalet"` normalizes to `"le chalet"`,
which a second normalization strips to `"chalet"`. -/
theorem claim_C3_counterexample :
    normalizeName (normalizeName (chars "le-chalet")) ≠ normalizeName (chars "le-chalet") ∧
    normalizeName (chars "le-chalet") = chars "le chalet" ∧
    normalizeName (normalizeName (chars "le-chalet")) = chars "chalet" := by
  decide

/-- C3 amended: normalization is idempotent on every string whose normalized
form does not begin with a strippable leading article — equivalently, on
which the article-stripping pass is a no-op.  (In general the invariant
fails, because only one leading article is stripped per pass and stripping
precedes separator collapsing and accent folding, which can expose a fresh
article.) -/
theorem claim_C3_normalize_idem (s : List Char)
    (h : stripArticle (normalizeName s) = normalizeName s) :
    normalizeName (normalizeName s) = normalizeName s := by
  show trimStr ((collapseStr (stripArticle (lowerStr (trimStr (normalizeName s))))).map
      foldChar) = normalizeName s
  rw [normalizeName_trim_fixed s, normalizeName_lower_eq s, h,
    normalizeName_collapse_eq s, normalizeName_fold_eq s, normalizeName_trim_fixed s]

/-- C3 witness: `"Le Chalet"` normalizes to `"chalet"`, on which the
stripping pass is a no-op, so a second normalization changes nothing. -/
theorem claim_C3_normalize_idem_witness :
    stripArticle (normalizeName (chars "Le Chalet")) = normalizeName (chars "Le Chalet") ∧
    normalizeName (normalizeName (chars "Le Chalet")) = normalizeName (chars "Le Chalet") :=
  ⟨by decide, claim_C3_normalize_idem (chars "Le Chalet") (by decide)⟩

/-- C8 witness: an empty record name yields the empty id set on a concrete
pool containing a candidate whose name normalizes to empty. -/
theorem claim_C8_empty_name_unmatchable_witness :
    findMatches [] [entDash] noHint = [] :=
  claim_C8_empty_name_unmatchable [entDash] noHint

/-- C10 witness: the symmetry at one concrete pair of raw names. -/
theorem claim_C10_fuzzyScore_symm_witness :
    fuzzyScore (chars "TSD Combe Folle") (chars "Combe Folle") =
      fuzzyScore (chars "Combe Folle") (chars "TSD Combe Folle") :=
  claim_C10_fuzzyScore_symm (chars "TSD Combe Folle") (chars "Combe Folle")

end SkiLift
